import Mathlib

/-!
# Verification of the nettop-notch sampling-to-rate pipeline

A shallow embedding of `src/cli.py` (nettop-notch): snapshot parsing,
interface prioritization, the rate engine and the row builder, plus the
interval-prompt handler of the interactive loop.  Python dicts are embedded
as insertion-ordered association lists, Python floats as rationals, Python
ints as `Int`.
-/

set_option maxHeartbeats 1000000
set_option maxRecDepth 4000

namespace Nettop

/-- One connection record, as produced by `parse_snapshot`:
`{'iface', 'state', 'local', 'remote'}` (field `local` is `local_` because
`local` is a Lean keyword). -/
structure Conn where
  iface : String
  state : String
  local_ : String
  remote : String
deriving DecidableEq, Repr

/-- The per-process rate quadruple `(rin, rout, rsum, rdelta)` computed in
`build_rows` (spec name: ProcessRate). -/
structure ProcessRate where
  rin : ℚ
  rout : ℚ
  rsum : ℚ
  rdelta : ℚ
deriving DecidableEq, Repr

/-- `proc_totals`: dict proc -> (bytes_in, bytes_out), as an
insertion-ordered association list. -/
abbrev Totals := List (String × Int × Int)

/-- `proc_conns`: dict proc -> list of connection records. -/
abbrev Conns := List (String × List Conn)

/-- First-match association-list lookup: Python `d.get(k)` / `d[k]`. -/
def alookup {κ β : Type} [DecidableEq κ] (p : κ) : List (κ × β) → Option β
  | [] => none
  | (k, v) :: rest => if k = p then some v else alookup p rest

/-- Python dict assignment `d[k] = v`: replace the value in place if the key
exists, else append (dicts preserve insertion order). -/
def aset {β : Type} (p : String) (v : β) : List (String × β) → List (String × β)
  | [] => [(p, v)]
  | (k, w) :: rest => if k = p then (k, v) :: rest else (k, w) :: aset p v rest

/-- Python `d.setdefault(k, d0)`: insert `d0` at the end if `k` is absent. -/
def asetdefault {β : Type} (p : String) (d0 : β) : List (String × β) → List (String × β)
  | [] => [(p, d0)]
  | (k, w) :: rest => if k = p then (k, w) :: rest else (k, w) :: asetdefault p d0 rest

/-- First-occurrence deduplication, the order a Python `dict`-based dedup
(`seen`) or `set` membership produces. -/
def firstDedup (l : List String) : List String :=
  l.foldl (fun acc x => if x ∈ acc then acc else acc ++ [x]) []

/-! ## Python string builtins

The Python builtins used by the source (`str.strip`, `str.lower`,
`str.startswith`, `str.split(sep, 1)`, `int`) are modelled over the
character list of a `String`, so that every definition evaluates inside the
kernel.  Only ASCII case folding is modelled; the data this program parses
(nettop CSV headers and interface names) is ASCII. -/

/-- ASCII case folding of one character (`str.lower` on ASCII). -/
def pyCharLower (c : Char) : Char :=
  if 'A' ≤ c ∧ c ≤ 'Z' then Char.ofNat (c.toNat + 32) else c

/-- `str.lower()` (ASCII). -/
def pyLower (s : String) : String := ⟨s.data.map pyCharLower⟩

/-- Python `str.isspace` characters relevant to `str.strip()`. -/
def pyIsSpace (c : Char) : Bool :=
  c = ' ' || c = '\t' || c = '\n' || c = '\r' || c = '\x0b' || c = '\x0c'

/-- `str.strip()`: drop leading and trailing whitespace. -/
def pyStrip (s : String) : String :=
  ⟨((s.data.dropWhile pyIsSpace).reverse.dropWhile pyIsSpace).reverse⟩

/-- `s.startswith(pre)`. -/
def pyStartsWith (s pre : String) : Bool := pre.data.isPrefixOf s.data

/-- `s.split(sep, 1)` on character lists: `some (before, after)` at the
first occurrence of `sep`, `none` when `sep` does not occur. -/
def pySplit1 (sep : List Char) : List Char → Option (List Char × List Char)
  | [] => if sep = [] then some ([], []) else none
  | c :: rest =>
    if sep.isPrefixOf (c :: rest) then some ([], (c :: rest).drop sep.length)
    else
      match pySplit1 sep rest with
      | some (pre, post) => some (c :: pre, post)
      | none => none

/-! ## Interface Prioritizer (`summarize_ifaces`) -/

/-- `(c.get("iface") or "-")`: an empty interface cell counts as the
placeholder. -/
def ifaceOr (c : Conn) : String := if c.iface = "" then "-" else c.iface

/-- The scoring heuristic `score` inside `summarize_ifaces`. -/
def score (i : String) : Int :=
  if i = "-" then -100
  else
    let n := pyLower i
    if pyStartsWith n "en" then 100
    else if pyStartsWith n "pdp_ip" then 90
    else if pyStartsWith n "utun" then 80
    else if pyStartsWith n "awdl" then 40
    else if n = "lo" ∨ n = "lo0" then -10
    else 50

/-- Python `max(candidates, key=lambda i: (score(i), i))`: left fold keeping
the first element whose key tuple is lexicographically maximal. -/
def pyMax (key : String → Int × String) (x : String) (xs : List String) : String :=
  xs.foldl (fun best y =>
    if (key best).1 < (key y).1 ∨ ((key best).1 = (key y).1 ∧ (key best).2 < (key y).2)
    then y else best) x

/-- `summarize_ifaces(conns) -> (primary_iface, extra_count, state_for_primary)`. -/
def summarize_ifaces (conns : List Conn) : String × Int × String :=
  match conns with
  | [] => ("-", 0, "-")
  | c0 :: _ =>
    let uniq := firstDedup (conns.map ifaceOr)
    let real_ifaces := uniq.filter (fun i => i ≠ "-")
    let externals := real_ifaces.filter (fun i => i ≠ "lo" ∧ i ≠ "lo0")
    let candidates := if externals ≠ [] then externals
                      else if real_ifaces ≠ [] then real_ifaces else ["-"]
    let primary := match candidates with
      | [] => "-"
      | x :: xs => pyMax (fun i => (score i, i)) x xs
    let extra_real : Int :=
      if real_ifaces ≠ [] then ((firstDedup real_ifaces).length : Int) - 1 else 0
    let st := match conns.find? (fun c => ifaceOr c = primary) with
      | some c => c.state
      | none => c0.state
    (primary, max 0 extra_real, st)

/-! ## Rate Engine (the `proc_rate` computation in `build_rows`) -/

/-- The guard `if dt_seconds <= 0: dt_seconds = 1e-6` at the top of
`build_rows`. -/
def clampDt (dt : ℚ) : ℚ := if dt ≤ 0 then 1 / 1000000 else dt

/-- The per-direction delta `max(0, now - prev)` (counter-reset clamp). -/
def clampDelta (now prev : Int) : Int := max 0 (now - prev)

/-- The `proc_rate` map of `build_rows`: one entry per process of
`curr_totals` with a non-zero clamped delta in at least one direction;
prior counters default to the current ones (`prev_totals.get(proc,
(bin_now, bout_now))`).  `dt` is the already-clamped elapsed time. -/
def procRate (prev_totals curr_totals : Totals) (dt : ℚ) :
    List (String × ProcessRate) :=
  curr_totals.filterMap fun e =>
    let proc := e.1
    let bin_now := e.2.1
    let bout_now := e.2.2
    let prev := (alookup proc prev_totals).getD (bin_now, bout_now)
    let din := clampDelta bin_now prev.1
    let dout := clampDelta bout_now prev.2
    if din ≠ 0 ∨ dout ≠ 0 then
      let rin : ℚ := (din : ℚ) / dt
      let rout : ℚ := (dout : ℚ) / dt
      some (proc, ⟨rin, rout, rin + rout, |rin - rout|⟩)
    else none

/-! ## Row Builder (`build_rows`) -/

/-- A row of the `remote` grouping mode. -/
structure RemoteRow where
  proc : String
  iface : String
  state : String
  remote : String
  locals : List String
  rin : ℚ
  rout : ℚ
  rsum : ℚ
  rdelta : ℚ
deriving DecidableEq, Repr

/-- A row of the `process` grouping mode. -/
structure ProcRow where
  proc : String
  iface : String
  state : String
  conn : String
  rin : ℚ
  rout : ℚ
  rsum : ℚ
  rdelta : ℚ
deriving DecidableEq, Repr

/-- A display row: the two grouping modes produce structurally different
rows. -/
inductive Row where
  | remote (r : RemoteRow)
  | process (r : ProcRow)
deriving DecidableEq, Repr

def Row.rin : Row → ℚ
  | .remote r => r.rin
  | .process r => r.rin

def Row.rout : Row → ℚ
  | .remote r => r.rout
  | .process r => r.rout

def Row.rsum : Row → ℚ
  | .remote r => r.rsum
  | .process r => r.rsum

def Row.rdelta : Row → ℚ
  | .remote r => r.rdelta
  | .process r => r.rdelta

def Row.procName : Row → String
  | .remote r => r.proc
  | .process r => r.proc

/-- The grouping key `(proc, c["iface"], c["state"], c["remote"])`. -/
abbrev GKey := String × String × String × String

def remoteKey (proc : String) (c : Conn) : GKey := (proc, c.iface, c.state, c.remote)

/-- The fresh group entry created for a key seen for the first time. -/
def newRemoteRow (proc : String) (rt : ProcessRate) (c : Conn) : RemoteRow :=
  { proc := proc, iface := c.iface, state := c.state, remote := c.remote,
    locals := [c.local_],
    rin := rt.rin, rout := rt.rout, rsum := rt.rsum, rdelta := rt.rdelta }

/-- One step of the `remote`-mode grouping loop: if the key is absent create
the group entry with a one-element locals list, else append the local
endpoint to the existing entry (Python `grouped` dict, insertion order). -/
def groupInsert (proc : String) (rt : ProcessRate) (c : Conn) :
    List (GKey × RemoteRow) → List (GKey × RemoteRow)
  | [] => [(remoteKey proc c, newRemoteRow proc rt c)]
  | (k, e) :: rest =>
    if k = remoteKey proc c then
      (k, { e with locals := e.locals ++ [c.local_] }) :: rest
    else (k, e) :: groupInsert proc rt c rest

/-- The `remote` grouping branch of `build_rows`: iterate `curr_conns`,
skip processes without a rate entry, group their connections by
`(proc, iface, state, remote)`; rows are the grouped values in insertion
order. -/
def remoteRows (rates : List (String × ProcessRate)) (curr_conns : Conns) :
    List RemoteRow :=
  (curr_conns.foldl (fun g pe =>
    match alookup pe.1 rates with
    | none => g
    | some rt => pe.2.foldl (fun g c => groupInsert pe.1 rt c g) g) []).map Prod.snd

/-- `remotes = [c["remote"] for c in conns if c["remote"]]`: the non-empty
remote endpoints, in order. -/
def remotesOf (conns : List Conn) : List String :=
  conns.filterMap fun c => if c.remote ≠ "" then some c.remote else none

/-- The overflow annotation appended to the connection column in `process`
mode: non-empty exactly when there is more than one distinct remote or more
than one socket. -/
def connExtra (conns : List Conn) : String :=
  let remotes := remotesOf conns
  let sockets : Int := (conns.length : Int)
  let distinct_remotes : Int := ((firstDedup remotes).length : Int)
  if distinct_remotes > 1 ∨ sockets > 1 then
    "  [+" ++ toString (max 0 (distinct_remotes - 1)) ++ " remotes, +" ++
      toString (max 0 (sockets - 1)) ++ " sockets]"
  else ""

/-- The `process`-mode row for one rate entry: first non-empty remote (or
the `"(no remote)"` placeholder), overflow annotation, and the Interface
Prioritizer's display. -/
def procRowFor (proc : String) (rt : ProcessRate) (conns : List Conn) : ProcRow :=
  let remotes := remotesOf conns
  let first_remote := match remotes with
    | [] => "(no remote)"
    | r :: _ => r
  let s := summarize_ifaces conns
  let primary_iface := s.1
  let extra_ifaces := s.2.1
  let state_for_primary := s.2.2
  let iface_disp := if extra_ifaces ≤ 0 then primary_iface
                    else primary_iface ++ " (+" ++ toString extra_ifaces ++ ")"
  { proc := proc, iface := iface_disp, state := state_for_primary,
    conn := first_remote ++ connExtra conns,
    rin := rt.rin, rout := rt.rout, rsum := rt.rsum, rdelta := rt.rdelta }

/-- `build_rows(group, prev_totals, curr_totals, curr_conns, dt_seconds)`. -/
def build_rows (group : String) (prev_totals curr_totals : Totals)
    (curr_conns : Conns) (dt_seconds : ℚ) : List Row :=
  let dt := clampDt dt_seconds
  let rates := procRate prev_totals curr_totals dt
  if group = "remote" then
    (remoteRows rates curr_conns).map Row.remote
  else
    rates.map fun e =>
      Row.process (procRowFor e.1 e.2 ((alookup e.1 curr_conns).getD []))

/-! ## Snapshot Parser (`parse_snapshot`)

`run_csv` (subprocess + csv module) is the external boundary; the parser is
embedded over its output: a header row and a list of body rows, each a list
of cells. -/

/-- Models Python's built-in `int()` applied to a decimal string: strip
whitespace, optional sign, then at least one digit (underscore digit
grouping is not modelled; no input in this development uses it).  `none`
models the `ValueError`. -/
def pyInt? (s : String) : Option Int :=
  let t := (pyStrip s).data
  let core := match t with
    | '-' :: rest => rest
    | '+' :: rest => rest
    | l => l
  let sign : Int := match t with
    | '-' :: _ => -1
    | _ => 1
  if core ≠ [] ∧ core.all Char.isDigit then
    some (sign * (core.foldl (fun acc c => acc * 10 + (c.toNat - 48)) (0 : Nat) : Nat))
  else none

/-- `idx = {name.lower(): i for i, name in enumerate(header)}` followed by
`idx.get(name)`: the **last** index whose lowered header cell equals
`name`. -/
def colIdx (header : List String) (name : String) : Option Nat :=
  header.enum.foldl (fun acc p => if pyLower p.2 = name then some p.1 else acc) none

/-- `r[i].strip() if i < len(r) else ""`. -/
def cellAt (r : List String) (i : Nat) : String := pyStrip ((r.get? i).getD "")

/-- A cell addressed by an optional column index (`None` column → `""`). -/
def cellAtOpt (r : List String) (col : Option Nat) : String :=
  match col with
  | some i => cellAt r i
  | none => ""

/-- `is_conn = "<->" in cell1 or cell1.startswith(("tcp", "udp"))`. -/
def isConnCell (cell1 : String) : Bool :=
  (pySplit1 "<->".data cell1.data).isSome || pyStartsWith cell1 "tcp" ||
    pyStartsWith cell1 "udp"

/-- `parts = cell1.split("<->", 1)` followed by
`local = parts[0].strip()` and
`remote = parts[1].strip() if len(parts) > 1 else ""`. -/
def splitLocalRemote (cell1 : String) : String × String :=
  match pySplit1 "<->".data cell1.data with
  | some (pre, post) => (pyStrip ⟨pre⟩, pyStrip ⟨post⟩)
  | none => (pyStrip cell1, "")

/-- One numeric field of a process-summary row:
`int(r[col]) if col is not None and r[col] else 0`, evaluated inside the
shared `try`.  `Except.error` models an exception (an `IndexError` from
`r[col]` or a `ValueError` from `int`); a `None` column or an empty cell
yields `0` without an exception. -/
def parseField (r : List String) (col : Option Nat) : Except Unit Int :=
  match col with
  | none => .ok 0
  | some i =>
    match r.get? i with
    | none => .error ()
    | some s =>
      if s = "" then .ok 0
      else
        match pyInt? s with
        | some v => .ok v
        | none => .error ()

/-- The two fields of a process-summary row under the single shared
`try/except`: any exception while computing either resets **both** to 0. -/
def parseTotalsCells (r : List String) (col_in col_out : Option Nat) : Int × Int :=
  match parseField r col_in, parseField r col_out with
  | .ok b, .ok o => (b, o)
  | _, _ => (0, 0)

/-- `proc_conns.setdefault(cur_proc, []).append(c)`: append `c` to the list
at key `p`, creating the key at the end when absent. -/
def appendConn (p : String) (c : Conn) : Conns → Conns
  | [] => [(p, [c])]
  | (k, cs) :: rest =>
    if k = p then (k, cs ++ [c]) :: rest else (k, cs) :: appendConn p c rest

/-- The parser's loop state: the "current process" cursor and the two maps
under construction. -/
structure ParseState where
  cur_proc : Option String
  totals : Totals
  conns : Conns
deriving DecidableEq, Repr

/-- One iteration of the `for r in body` loop of `parse_snapshot`. -/
def parseRow (col_iface col_state col_in col_out : Option Nat)
    (st : ParseState) (r : List String) : ParseState :=
  let cell1 := cellAt r 1
  let iface := cellAtOpt r col_iface
  let state := cellAtOpt r col_state
  if isConnCell cell1 then
    match st.cur_proc with
    | some p =>
      if p = "" then st
      else
        let lr := splitLocalRemote cell1
        let c : Conn :=
          { iface := if iface = "" then "-" else iface,
            state := if state = "" then "-" else state,
            local_ := lr.1, remote := lr.2 }
        { st with conns := appendConn p c st.conns }
    | none => st
  else
    let proc := cell1
    if proc = "" then st
    else
      let bo := parseTotalsCells r col_in col_out
      { cur_proc := some proc,
        totals := aset proc bo st.totals,
        conns := asetdefault proc [] st.conns }

/-- `parse_snapshot`, embedded over the `run_csv` output `(header, body)`:
returns `(proc_totals, proc_conns)`. -/
def parse_snapshot (header : List String) (body : List (List String)) :
    Totals × Conns :=
  if header = [] then ([], [])
  else
    let col_iface := colIdx header "interface"
    let col_state := colIdx header "state"
    let col_in := colIdx header "bytes_in"
    let col_out := colIdx header "bytes_out"
    let st := body.foldl (parseRow col_iface col_state col_in col_out)
      ⟨none, [], []⟩
    (st.totals, st.conns)

/-! ## Interval-change prompt handler (in `ui_loop.loop`)

The `change_interval` branch: prompt for a line `s`; a non-empty `s` that
parses as a positive float replaces `args.interval`; any other entry leaves
the interval alone; in **every** case `next_target = time.monotonic()` then
runs.  `pyFloat` stands for Python's built-in `float()` (`none` models the
`ValueError`); `now` is the value of `time.monotonic()` after the prompt. -/
def handle_change_interval (pyFloat : String → Option ℚ)
    (interval _next_target now : ℚ) (s : String) : ℚ × ℚ :=
  let interval' :=
    if s ≠ "" then
      match pyFloat s with
      | some val => if val > 0 then val else interval
      | none => interval
    else interval
  (interval', now)

/-! ## Characterization functions for the remote grouping

Specification-side views of the `remote` grouping, used to state what the
grouping loop produces: the flattened stream of `(proc, rate, conn)`
triples it iterates, a row's grouping key, and the locals matching a key
in encounter order. -/

/-- A row's grouping key. -/
def rowKey (r : RemoteRow) : GKey := (r.proc, r.iface, r.state, r.remote)

/-- The key of one `(proc, rate, conn)` triple. -/
def tKey (t : String × ProcessRate × Conn) : GKey := remoteKey t.1 t.2.2

/-- The stream of `(proc, rate, conn)` triples the `remote` grouping loop
iterates: connections of processes that have a rate entry, in order. -/
def ratedConns (rates : List (String × ProcessRate)) (cc : Conns) :
    List (String × ProcessRate × Conn) :=
  cc.flatMap fun pe =>
    match alookup pe.1 rates with
    | none => []
    | some rt => pe.2.map fun c => (pe.1, rt, c)

/-- The local endpoints of the triples with key `k`, in encounter order,
duplicates retained. -/
def locsOf (k : GKey) (l : List (String × ProcessRate × Conn)) : List String :=
  l.filterMap fun t => if tKey t = k then some t.2.2.local_ else none

/-- One grouping step on a triple. -/
def gstep (g : List (GKey × RemoteRow)) (t : String × ProcessRate × Conn) :
    List (GKey × RemoteRow) :=
  groupInsert t.1 t.2.1 t.2.2 g

/-! ## Basic association-list lemmas -/

theorem alookup_mem {κ β : Type} [DecidableEq κ] {p : κ} {v : β} :
    ∀ {m : List (κ × β)}, alookup p m = some v → (p, v) ∈ m := by
  intro m
  induction m with
  | nil => intro h; simp [alookup] at h
  | cons hd tl ih =>
    obtain ⟨k, w⟩ := hd
    intro h
    by_cases hk : k = p
    · subst hk
      simp [alookup] at h
      subst h; exact List.mem_cons_self _ _
    · simp only [alookup, if_neg hk] at h
      exact List.mem_cons_of_mem _ (ih h)

theorem alookup_aset_self {β : Type} (p : String) (v : β) :
    ∀ m : List (String × β), alookup p (aset p v m) = some v := by
  intro m
  induction m with
  | nil => simp [aset, alookup]
  | cons hd tl ih =>
    obtain ⟨k, w⟩ := hd
    by_cases hk : k = p
    · simp [aset, hk, alookup]
    · simp [aset, hk, alookup, ih]

/-! ## Rate-engine lemmas -/

theorem clampDt_pos (dt : ℚ) : 0 < clampDt dt := by
  unfold clampDt
  split
  · norm_num
  · linarith [not_le.mp (by assumption : ¬ dt ≤ 0)]

theorem clampDelta_nonneg (now prev : Int) : 0 ≤ clampDelta now prev :=
  le_max_left 0 _

/-- Shape of every rate entry: it arises from a `curr_totals` entry with a
non-zero clamped delta, and its four fields are the two quotients, their
sum and their absolute difference. -/
theorem mem_procRate {pt ct : Totals} {dt : ℚ} {x : String × ProcessRate}
    (hx : x ∈ procRate pt ct dt) :
    ∃ e ∈ ct, x.1 = e.1 ∧
      ∃ din dout : Int, 0 ≤ din ∧ 0 ≤ dout ∧ (din ≠ 0 ∨ dout ≠ 0) ∧
        x.2 = ⟨(din : ℚ) / dt, (dout : ℚ) / dt,
               (din : ℚ) / dt + (dout : ℚ) / dt,
               |(din : ℚ) / dt - (dout : ℚ) / dt|⟩ := by
  simp only [procRate, List.mem_filterMap] at hx
  obtain ⟨e, he, hfe⟩ := hx
  refine ⟨e, he, ?_⟩
  split at hfe
  · obtain ⟨rfl⟩ := hfe
    exact ⟨rfl, _, _, clampDelta_nonneg _ _, clampDelta_nonneg _ _,
      (by assumption), rfl⟩
  · exact absurd hfe (by simp)

/-! ## Remote-grouping invariants -/

/-- Invariant preservation through one `groupInsert` step, at the level of
`(key, entry)` pairs. -/
theorem groupInsert_forall {P : GKey × RemoteRow → Prop} (p : String)
    (rt : ProcessRate) (c : Conn) :
    ∀ g : List (GKey × RemoteRow), (∀ x ∈ g, P x) →
      P (remoteKey p c, newRemoteRow p rt c) →
      (∀ k e, P (k, e) → P (k, { e with locals := e.locals ++ [c.local_] })) →
      ∀ x ∈ groupInsert p rt c g, P x := by
  intro g
  induction g with
  | nil =>
    intro _ hnew _
    simp only [groupInsert, List.mem_singleton]
    rintro x rfl; exact hnew
  | cons hd tl ih =>
    obtain ⟨k, e⟩ := hd
    intro hg hnew hupd x hx
    by_cases hk : k = remoteKey p c
    · simp only [groupInsert, if_pos hk] at hx
      rcases List.mem_cons.mp hx with rfl | hmem
      · exact hupd k e (hg (k, e) (List.mem_cons_self _ _))
      · exact hg x (List.mem_cons_of_mem _ hmem)
    · simp only [groupInsert, if_neg hk] at hx
      rcases List.mem_cons.mp hx with rfl | hmem
      · exact hg (k, e) (List.mem_cons_self _ _)
      · exact ih (fun y hy => hg y (List.mem_cons_of_mem _ hy)) hnew hupd x hmem

/-- Invariant preservation through the inner fold over one process's
connection list. -/
theorem foldl_groupInsert_forall {P : GKey × RemoteRow → Prop} (p : String)
    (rt : ProcessRate) :
    ∀ (cs : List Conn) (g : List (GKey × RemoteRow)), (∀ x ∈ g, P x) →
      (∀ c ∈ cs, P (remoteKey p c, newRemoteRow p rt c)) →
      (∀ c ∈ cs, ∀ k e, P (k, e) → P (k, { e with locals := e.locals ++ [c.local_] })) →
      ∀ x ∈ cs.foldl (fun g c => groupInsert p rt c g) g, P x := by
  intro cs
  induction cs with
  | nil => intro g hg _ _; simpa using hg
  | cons c rest ih =>
    intro g hg hnew hupd x hx
    simp only [List.foldl_cons] at hx
    exact ih (groupInsert p rt c g)
      (groupInsert_forall p rt c g hg
        (hnew c (List.mem_cons_self _ _))
        (hupd c (List.mem_cons_self _ _)))
      (fun c' hc' => hnew c' (List.mem_cons_of_mem _ hc'))
      (fun c' hc' => hupd c' (List.mem_cons_of_mem _ hc')) x hx

/-- Invariant for every row of the `remote` grouping: each row was created
for some connection of a rate-carrying process of `curr_conns` and then only
extended by appending local endpoints. -/
theorem remoteRows_forall {P : GKey × RemoteRow → Prop}
    (rates : List (String × ProcessRate)) (cc : Conns)
    (hnew : ∀ pe ∈ cc, ∀ rt c, alookup pe.1 rates = some rt → c ∈ pe.2 →
      P (remoteKey pe.1 c, newRemoteRow pe.1 rt c))
    (hupd : ∀ k e l, P (k, e) → P (k, { e with locals := e.locals ++ [l] })) :
    ∀ x ∈ cc.foldl (fun g pe =>
        match alookup pe.1 rates with
        | none => g
        | some rt => pe.2.foldl (fun g c => groupInsert pe.1 rt c g) g) [],
      P x := by
  suffices h : ∀ (cc' : Conns), (∀ pe ∈ cc', ∀ rt c, alookup pe.1 rates = some rt →
      c ∈ pe.2 → P (remoteKey pe.1 c, newRemoteRow pe.1 rt c)) →
      ∀ g : List (GKey × RemoteRow), (∀ x ∈ g, P x) →
      ∀ x ∈ cc'.foldl (fun g pe =>
        match alookup pe.1 rates with
        | none => g
        | some rt => pe.2.foldl (fun g c => groupInsert pe.1 rt c g) g) g, P x by
    exact h cc hnew [] (by simp)
  intro cc'
  induction cc' with
  | nil => intro _ g hg; simpa using hg
  | cons pe rest ih =>
    intro hnew' g hg x hx
    simp only [List.foldl_cons] at hx
    rcases hrt : alookup pe.1 rates with _ | rt
    · rw [hrt] at hx
      exact ih (fun q hq => hnew' q (List.mem_cons_of_mem _ hq)) g hg x hx
    · rw [hrt] at hx
      refine ih (fun q hq => hnew' q (List.mem_cons_of_mem _ hq)) _ ?_ x hx
      exact foldl_groupInsert_forall pe.1 rt pe.2 g hg
        (fun c hc => hnew' pe (List.mem_cons_self _ _) rt c hrt hc)
        (fun c _ k e hP => hupd k e c.local_ hP)

/-- Every row of `remoteRows` carries exactly the rate quadruple looked up
for its process, and its process has a non-empty connection list in
`curr_conns`. -/
theorem remoteRows_provenance (rates : List (String × ProcessRate)) (cc : Conns) :
    ∀ r ∈ remoteRows rates cc,
      alookup r.proc rates = some ⟨r.rin, r.rout, r.rsum, r.rdelta⟩ ∧
      ∃ pe ∈ cc, pe.1 = r.proc ∧ pe.2 ≠ [] := by
  intro r hr
  simp only [remoteRows, List.mem_map] at hr
  obtain ⟨x, hx, rfl⟩ := hr
  refine remoteRows_forall rates cc
    (P := fun x => alookup x.2.proc rates = some ⟨x.2.rin, x.2.rout, x.2.rsum, x.2.rdelta⟩ ∧
      ∃ pe ∈ cc, pe.1 = x.2.proc ∧ pe.2 ≠ [])
    ?_ ?_ x hx
  · intro pe hpe rt c hrt hc
    refine ⟨?_, pe, hpe, rfl, fun hnil => by simp [hnil] at hc⟩
    simpa [newRemoteRow] using hrt
  · intro k e l hP
    simpa [newRemoteRow] using hP

/-- Every display row, in either grouping mode, carries the rate quadruple
of some rate-engine entry. -/
theorem rate_of_row {g : String} {pt ct : Totals} {cc : Conns} {dt : ℚ} {row : Row}
    (hrow : row ∈ build_rows g pt ct cc dt) :
    ∃ x ∈ procRate pt ct (clampDt dt),
      x.1 = row.procName ∧ x.2 = ⟨row.rin, row.rout, row.rsum, row.rdelta⟩ := by
  simp only [build_rows] at hrow
  split at hrow
  · simp only [List.mem_map] at hrow
    obtain ⟨r, hr, rfl⟩ := hrow
    obtain ⟨hrt, -⟩ := remoteRows_provenance _ cc r hr
    exact ⟨(r.proc, ⟨r.rin, r.rout, r.rsum, r.rdelta⟩), alookup_mem hrt, rfl, rfl⟩
  · simp only [List.mem_map] at hrow
    obtain ⟨e, he, rfl⟩ := hrow
    exact ⟨e, he, rfl, rfl⟩

/-- The `remote` branch of `build_rows`, unfolded. -/
theorem build_rows_remote_unfold (pt ct : Totals) (cc : Conns) (dt : ℚ) :
    build_rows "remote" pt ct cc dt =
      (remoteRows (procRate pt ct (clampDt dt)) cc).map Row.remote := by
  simp [build_rows]

/-- The non-`remote` branch of `build_rows`, unfolded. -/
theorem build_rows_process_unfold (g : String) (pt ct : Totals) (cc : Conns) (dt : ℚ)
    (hg : g ≠ "remote") :
    build_rows g pt ct cc dt =
      (procRate pt ct (clampDt dt)).map fun e =>
        Row.process (procRowFor e.1 e.2 ((alookup e.1 cc).getD [])) := by
  simp [build_rows, hg]

/-! ## Concrete-tick evaluations (shared by witnesses) -/

/-- The concrete rate map of the `(0,0) → (1024,0)` tick. -/
theorem procRate_eval_p1024 :
    procRate [("P", (0, 0))] [("P", (1024, 0))] (clampDt 1) =
      [("P", ⟨1024, 0, 1024, 1024⟩)] := by
  simp only [procRate, List.filterMap_cons, List.filterMap_nil, alookup]
  norm_num [clampDelta, clampDt]

/-- A concrete `process`-mode tick: process `P` moves from `(0,0)` to
`(1024,0)` over one second with no connections. -/
theorem build_rows_process_eval :
    build_rows "process" [("P", (0, 0))] [("P", (1024, 0))] [("P", [])] 1 =
      [Row.process ⟨"P", "-", "-", "(no remote)", 1024, 0, 1024, 1024⟩] := by
  simp only [build_rows, procRate_eval_p1024]
  rw [if_neg (by decide : ¬ ("process" : String) = "remote")]
  norm_num [procRowFor, summarize_ifaces, remotesOf, connExtra, alookup,
    List.filterMap_nil, firstDedup]

/-- A concrete `remote`-mode tick: process `P` moves from `(0,0)` to
`(1024,512)` over one second with a single connection. -/
theorem build_rows_remote_eval :
    build_rows "remote" [("P", (0, 0))] [("P", (1024, 512))]
        [("P", [⟨"en0", "E", "l1", "r1"⟩])] 1 =
      [Row.remote ⟨"P", "en0", "E", "r1", ["l1"], 1024, 512, 1536, 512⟩] := by
  have h : procRate [("P", (0, 0))] [("P", (1024, 512))] (clampDt 1) =
      [("P", ⟨1024, 512, 1536, 512⟩)] := by
    simp only [procRate, List.filterMap_cons, List.filterMap_nil, alookup]
    norm_num [clampDelta, clampDt]
  simp only [build_rows, h]
  rw [if_pos trivial]
  norm_num [remoteRows, alookup, groupInsert, newRemoteRow, remoteKey]

/-! ## Claim C1 -/

/-- C1: for every pair of successive counter values, the delta used by the
rate engine is `curr − prev` when `curr ≥ prev` and `0` when `curr < prev`
(counter-reset clamp); consequently every produced rate field (`rin`,
`rout`, `rsum`, `rdelta`) of every row, in either grouping mode, is
non-negative for all inputs. -/
theorem C1_delta_clamp_rates_nonneg (prev curr : Int) (g : String)
    (pt ct : Totals) (cc : Conns) (dt : ℚ) :
    (prev ≤ curr → clampDelta curr prev = curr - prev) ∧
    (curr < prev → clampDelta curr prev = 0) ∧
    (∀ row ∈ build_rows g pt ct cc dt,
      0 ≤ row.rin ∧ 0 ≤ row.rout ∧ 0 ≤ row.rsum ∧ 0 ≤ row.rdelta) := by
  refine ⟨fun h => max_eq_right (by omega), fun h => max_eq_left (by omega), ?_⟩
  intro row hrow
  obtain ⟨x, hx, -, hrate⟩ := rate_of_row hrow
  obtain ⟨e, -, -, din, dout, hdin, hdout, -, hshape⟩ := mem_procRate hx
  rw [hshape] at hrate
  have hdt : (0 : ℚ) < clampDt dt := clampDt_pos dt
  have h1 : (0 : ℚ) ≤ (din : ℚ) / clampDt dt :=
    div_nonneg (by exact_mod_cast hdin) hdt.le
  have h2 : (0 : ℚ) ≤ (dout : ℚ) / clampDt dt :=
    div_nonneg (by exact_mod_cast hdout) hdt.le
  have hin : row.rin = (din : ℚ) / clampDt dt := congrArg ProcessRate.rin hrate.symm
  have hout : row.rout = (dout : ℚ) / clampDt dt := congrArg ProcessRate.rout hrate.symm
  have hsum : row.rsum = (din : ℚ) / clampDt dt + (dout : ℚ) / clampDt dt :=
    congrArg ProcessRate.rsum hrate.symm
  have hdel : row.rdelta = |(din : ℚ) / clampDt dt - (dout : ℚ) / clampDt dt| :=
    congrArg ProcessRate.rdelta hrate.symm
  exact ⟨hin ▸ h1, hout ▸ h2, hsum ▸ by linarith, hdel ▸ abs_nonneg _⟩

/-- Witness for C1 at concrete inputs: a growing counter, a reset counter,
and the concrete row of a concrete tick, whose rate fields are
non-negative. -/
theorem C1_witness :
    clampDelta 7 3 = 4 ∧ clampDelta 3 7 = 0 ∧
    (0 ≤ (Row.process ⟨"P", "-", "-", "(no remote)", 1024, 0, 1024, 1024⟩).rin ∧
     0 ≤ (Row.process ⟨"P", "-", "-", "(no remote)", 1024, 0, 1024, 1024⟩).rout ∧
     0 ≤ (Row.process ⟨"P", "-", "-", "(no remote)", 1024, 0, 1024, 1024⟩).rsum ∧
     0 ≤ (Row.process ⟨"P", "-", "-", "(no remote)", 1024, 0, 1024, 1024⟩).rdelta) :=
  ⟨(C1_delta_clamp_rates_nonneg 3 7 "process" [] [] [] 1).1 (by norm_num),
   (C1_delta_clamp_rates_nonneg 7 3 "process" [] [] [] 1).2.1 (by norm_num),
   (C1_delta_clamp_rates_nonneg 3 7 "process"
      [("P", (0, 0))] [("P", (1024, 0))] [("P", [])] 1).2.2
      (Row.process ⟨"P", "-", "-", "(no remote)", 1024, 0, 1024, 1024⟩)
      (by rw [build_rows_process_eval]; exact List.mem_singleton.mpr rfl)⟩

/-! ## Claim C2 -/

/-- C2: for every row produced by the row builder, in either grouping mode
and for all inputs, `rdelta = |rin − rout|` and `rsum = rin + rout` hold
exactly, both derived fields are non-negative, and `rin`, `rout` are the
quotients of the two non-negative deltas by the (clamped) elapsed time. -/
theorem C2_row_identities (g : String) (pt ct : Totals) (cc : Conns) (dt : ℚ) :
    ∀ row ∈ build_rows g pt ct cc dt,
      row.rdelta = |row.rin - row.rout| ∧ row.rsum = row.rin + row.rout ∧
      0 ≤ row.rdelta ∧ 0 ≤ row.rsum ∧
      ∃ din dout : Int, 0 ≤ din ∧ 0 ≤ dout ∧
        row.rin = (din : ℚ) / clampDt dt ∧ row.rout = (dout : ℚ) / clampDt dt := by
  intro row hrow
  obtain ⟨x, hx, -, hrate⟩ := rate_of_row hrow
  obtain ⟨e, -, -, din, dout, hdin, hdout, -, hshape⟩ := mem_procRate hx
  rw [hshape] at hrate
  have hin : row.rin = (din : ℚ) / clampDt dt := congrArg ProcessRate.rin hrate.symm
  have hout : row.rout = (dout : ℚ) / clampDt dt := congrArg ProcessRate.rout hrate.symm
  have hsum : row.rsum = (din : ℚ) / clampDt dt + (dout : ℚ) / clampDt dt :=
    congrArg ProcessRate.rsum hrate.symm
  have hdel : row.rdelta = |(din : ℚ) / clampDt dt - (dout : ℚ) / clampDt dt| :=
    congrArg ProcessRate.rdelta hrate.symm
  have hdt : (0 : ℚ) < clampDt dt := clampDt_pos dt
  have h1 : (0 : ℚ) ≤ (din : ℚ) / clampDt dt :=
    div_nonneg (by exact_mod_cast hdin) hdt.le
  have h2 : (0 : ℚ) ≤ (dout : ℚ) / clampDt dt :=
    div_nonneg (by exact_mod_cast hdout) hdt.le
  refine ⟨by rw [hdel, hin, hout], by rw [hsum, hin, hout], hdel ▸ abs_nonneg _,
    hsum ▸ by linarith, din, dout, hdin, hdout, hin, hout⟩

/-- Witness for C2: the concrete row of a concrete remote-mode tick
satisfies the two identities. -/
theorem C2_witness :
    (Row.remote ⟨"P", "en0", "E", "r1", ["l1"], 1024, 512, 1536, 512⟩).rdelta =
      |(Row.remote ⟨"P", "en0", "E", "r1", ["l1"], 1024, 512, 1536, 512⟩).rin -
       (Row.remote ⟨"P", "en0", "E", "r1", ["l1"], 1024, 512, 1536, 512⟩).rout| ∧
    (Row.remote ⟨"P", "en0", "E", "r1", ["l1"], 1024, 512, 1536, 512⟩).rsum =
      (Row.remote ⟨"P", "en0", "E", "r1", ["l1"], 1024, 512, 1536, 512⟩).rin +
      (Row.remote ⟨"P", "en0", "E", "r1", ["l1"], 1024, 512, 1536, 512⟩).rout ∧
    0 ≤ (Row.remote ⟨"P", "en0", "E", "r1", ["l1"], 1024, 512, 1536, 512⟩).rdelta ∧
    0 ≤ (Row.remote ⟨"P", "en0", "E", "r1", ["l1"], 1024, 512, 1536, 512⟩).rsum ∧
    ∃ din dout : Int, 0 ≤ din ∧ 0 ≤ dout ∧
      (Row.remote ⟨"P", "en0", "E", "r1", ["l1"], 1024, 512, 1536, 512⟩).rin =
        (din : ℚ) / clampDt 1 ∧
      (Row.remote ⟨"P", "en0", "E", "r1", ["l1"], 1024, 512, 1536, 512⟩).rout =
        (dout : ℚ) / clampDt 1 :=
  C2_row_identities "remote" [("P", (0, 0))] [("P", (1024, 512))]
    [("P", [⟨"en0", "E", "l1", "r1"⟩])] 1
    (Row.remote ⟨"P", "en0", "E", "r1", ["l1"], 1024, 512, 1536, 512⟩)
    (by rw [build_rows_remote_eval]; exact List.mem_singleton.mpr rfl)

/-! ## Claim C3 -/

theorem nodup_keys_val_eq {α β : Type} {l : List (α × β)}
    (h : (l.map Prod.fst).Nodup) {k : α} {v w : β}
    (h1 : (k, v) ∈ l) (h2 : (k, w) ∈ l) : v = w := by
  induction l with
  | nil => cases h1
  | cons hd tl ih =>
    obtain ⟨a, b⟩ := hd
    simp only [List.map_cons, List.nodup_cons] at h
    rcases List.mem_cons.mp h1 with h1' | h1' <;> rcases List.mem_cons.mp h2 with h2' | h2'
    · rw [Prod.mk.injEq] at h1' h2'
      rw [h1'.2, h2'.2]
    · exfalso
      rw [Prod.mk.injEq] at h1'
      exact h.1 (h1'.1 ▸ List.mem_map.mpr ⟨(k, w), h2', rfl⟩)
    · exfalso
      rw [Prod.mk.injEq] at h2'
      exact h.1 (h2'.1 ▸ List.mem_map.mpr ⟨(k, v), h1', rfl⟩)
    · exact ih h.2 h1' h2'

/-- A process has a rate entry exactly when some entry of `curr_totals` with
its name has a non-zero clamped delta in at least one direction. -/
theorem procRate_key_iff (pt ct : Totals) (dt : ℚ) (proc : String) :
    (∃ rt, (proc, rt) ∈ procRate pt ct dt) ↔
    (∃ bi bo : Int, (proc, (bi, bo)) ∈ ct ∧
      (clampDelta bi (((alookup proc pt).getD (bi, bo)).1) ≠ 0 ∨
       clampDelta bo (((alookup proc pt).getD (bi, bo)).2) ≠ 0)) := by
  constructor
  · rintro ⟨rt, hrt⟩
    simp only [procRate, List.mem_filterMap] at hrt
    obtain ⟨⟨p, bi0, bo0⟩, he, hfe⟩ := hrt
    split at hfe
    · rw [Option.some.injEq, Prod.mk.injEq] at hfe
      obtain ⟨rfl, -⟩ := hfe
      exact ⟨bi0, bo0, he, by assumption⟩
    · exact absurd hfe (by simp)
  · rintro ⟨bi, bo, hmem, hcond⟩
    refine ⟨⟨(clampDelta bi (((alookup proc pt).getD (bi, bo)).1) : ℚ) / dt,
             (clampDelta bo (((alookup proc pt).getD (bi, bo)).2) : ℚ) / dt,
             (clampDelta bi (((alookup proc pt).getD (bi, bo)).1) : ℚ) / dt +
               (clampDelta bo (((alookup proc pt).getD (bi, bo)).2) : ℚ) / dt,
             |(clampDelta bi (((alookup proc pt).getD (bi, bo)).1) : ℚ) / dt -
               (clampDelta bo (((alookup proc pt).getD (bi, bo)).2) : ℚ) / dt|⟩,
      List.mem_filterMap.mpr ⟨(proc, (bi, bo)), hmem, ?_⟩⟩
    simp only [if_pos hcond]

/-- A process without a rate entry contributes no row in either grouping
mode. -/
theorem no_rate_no_row {pt ct : Totals} {cc : Conns} {dt : ℚ} {proc : String}
    (h : ¬ ∃ rt, (proc, rt) ∈ procRate pt ct (clampDt dt)) (g : String) :
    ∀ row ∈ build_rows g pt ct cc dt, row.procName ≠ proc := by
  intro row hrow hname
  obtain ⟨x, hx, hkey, -⟩ := rate_of_row hrow
  refine h ⟨x.2, ?_⟩
  have : x = (proc, x.2) := by
    rw [← hname, ← hkey]
  rw [← this]
  exact hx

/-- C3: a process of the current totals gets a rate entry (and hence, in
`process` mode, a row) iff at least one direction has a non-zero clamped
delta; without a rate entry no row mentions the process in either mode; in
particular a process with identical `prev`/`curr` counters, or one absent
from the previous snapshot (prior counters defaulting to the current ones),
produces no row that tick. -/
theorem C3_entry_iff_nonzero_delta (pt ct : Totals) (cc : Conns) (dt : ℚ) (proc : String) :
    ((∃ rt, (proc, rt) ∈ procRate pt ct (clampDt dt)) ↔
      (∃ bi bo : Int, (proc, (bi, bo)) ∈ ct ∧
        (clampDelta bi (((alookup proc pt).getD (bi, bo)).1) ≠ 0 ∨
         clampDelta bo (((alookup proc pt).getD (bi, bo)).2) ≠ 0))) ∧
    (∀ g : String, (¬ ∃ rt, (proc, rt) ∈ procRate pt ct (clampDt dt)) →
      ∀ row ∈ build_rows g pt ct cc dt, row.procName ≠ proc) ∧
    ((∃ rt, (proc, rt) ∈ procRate pt ct (clampDt dt)) →
      ∃ row ∈ build_rows "process" pt ct cc dt, row.procName = proc) ∧
    ((ct.map Prod.fst).Nodup →
      ∀ bi bo : Int, (proc, (bi, bo)) ∈ ct →
      (alookup proc pt = some (bi, bo) ∨ alookup proc pt = none) →
      ∀ g : String, ∀ row ∈ build_rows g pt ct cc dt, row.procName ≠ proc) := by
  refine ⟨procRate_key_iff pt ct (clampDt dt) proc,
    fun g h => no_rate_no_row h g, ?_, ?_⟩
  · rintro ⟨rt, hrt⟩
    refine ⟨Row.process (procRowFor proc rt ((alookup proc cc).getD [])), ?_, rfl⟩
    simp only [build_rows]
    rw [if_neg (by decide : ¬ ("process" : String) = "remote")]
    exact List.mem_map.mpr ⟨(proc, rt), hrt, rfl⟩
  · intro hnd bi bo hmem hprev g
    refine no_rate_no_row ?_ g
    rintro ⟨rt, hrt⟩
    simp only [procRate, List.mem_filterMap] at hrt
    obtain ⟨e, he, hfe⟩ := hrt
    split at hfe
    · obtain ⟨h1, -⟩ := Prod.mk.injEq .. ▸ Option.some.injEq .. ▸ hfe
      have he2 : e.2 = (bi, bo) := by
        refine nodup_keys_val_eq hnd ?_ hmem
        rw [← h1]
        exact (by exact he : (e.1, e.2) ∈ ct)
      rename_i hcond
      rw [h1, he2] at hcond
      rcases hprev with hp | hp <;>
        simp [hp, clampDelta] at hcond
    · exact absurd hfe (by simp)

/-- A concrete rate computation where `P` has identical counters and `Q`
has a 1024-byte inbound delta. -/
theorem procRate_eval_pq :
    procRate [("P", (5, 5)), ("Q", (0, 0))] [("P", (5, 5)), ("Q", (1024, 0))]
      (clampDt 1) = [("Q", ⟨1024, 0, 1024, 1024⟩)] := by
  have h1 : alookup "P" [("P", ((5 : Int), (5 : Int))), ("Q", (0, 0))] = some (5, 5) := by
    decide
  have h2 : alookup "Q" [("P", ((5 : Int), (5 : Int))), ("Q", (0, 0))] = some (0, 0) := by
    decide
  simp only [procRate, List.filterMap_cons, List.filterMap_nil, h1, h2]
  norm_num [clampDelta, clampDt]

/-- Witness for C3: in the concrete two-process tick, the produced row is
for `Q`, not for the zero-delta process `P`. -/
theorem C3_witness :
    (Row.process (procRowFor "Q" ⟨1024, 0, 1024, 1024⟩ [])).procName ≠ "P" :=
  (C3_entry_iff_nonzero_delta [("P", (5, 5)), ("Q", (0, 0))]
      [("P", (5, 5)), ("Q", (1024, 0))] [] 1 "P").2.2.2
    (by decide) 5 5 (by decide) (Or.inl (by decide)) "process"
    (Row.process (procRowFor "Q" ⟨1024, 0, 1024, 1024⟩ []))
    (by
      simp only [build_rows, procRate_eval_pq]
      rw [if_neg (by decide : ¬ ("process" : String) = "remote")]
      exact List.mem_map.mpr ⟨("Q", ⟨1024, 0, 1024, 1024⟩), List.mem_singleton.mpr rfl, rfl⟩)

/-! ## Claim C4 (corrected)

The code resets `next_target = time.monotonic()` unconditionally after the
prompt returns, valid entry or not; only the interval is retained on an
invalid or empty entry. -/

/-- C4 counterexample: with interval `3`, cadence anchor `10`, current time
`20` and an **empty** entry, the state is not left unchanged: the anchor is
reset to `20` instead of keeping `10`. -/
theorem C4_counterexample :
    handle_change_interval (fun _ => none) 3 10 20 "" = (3, 20) ∧
    handle_change_interval (fun _ => none) 3 10 20 "" ≠ (3, 10) := by
  constructor
  · rfl
  · intro h
    rw [Prod.mk.injEq] at h
    have h2 : (20 : ℚ) = 10 := h.2
    norm_num at h2

/-- C4 (amended): after the interval-change prompt returns, the cadence
anchor is reset to "now" in **every** case; the interval is retained when
the entered text is empty, unparsable, or not positive, and only a valid
positive number replaces it. -/
theorem C4_prompt_behavior (f : String → Option ℚ) (interval next_target now : ℚ)
    (s : String) :
    ((handle_change_interval f interval next_target now s).2 = now) ∧
    ((s = "" ∨ f s = none ∨ (∃ v, f s = some v ∧ ¬ v > 0)) →
      (handle_change_interval f interval next_target now s).1 = interval) ∧
    (∀ v, s ≠ "" → f s = some v → v > 0 →
      (handle_change_interval f interval next_target now s).1 = v) := by
  refine ⟨rfl, ?_, ?_⟩
  · rintro (rfl | hnone | ⟨v, hv, hle⟩)
    · rfl
    · by_cases hs : s = ""
      · simp [handle_change_interval, hs]
      · simp [handle_change_interval, hs, hnone]
    · by_cases hs : s = ""
      · simp [handle_change_interval, hs]
      · simp [handle_change_interval, hs, hv, hle]
  · intro v hs hv hpos
    simp [handle_change_interval, hs, hv, hpos]

/-- Witness for C4 at concrete inputs: an empty entry keeps the interval but
moves the anchor to now; a valid entry `"5"` replaces the interval. -/
theorem C4_witness :
    (handle_change_interval (fun _ => none) 3 10 20 "").1 = 3 ∧
    (handle_change_interval (fun _ => none) 3 10 20 "").2 = 20 ∧
    (handle_change_interval (fun _ => some 5) 3 10 20 "5").1 = 5 :=
  ⟨(C4_prompt_behavior (fun _ => none) 3 10 20 "").2.1 (Or.inl rfl),
   (C4_prompt_behavior (fun _ => none) 3 10 20 "").1,
   (C4_prompt_behavior (fun _ => some 5) 3 10 20 "5").2.2 5 (by decide) rfl (by norm_num)⟩

/-! ## Claim C5 (corrected)

The single `try/except` wraps **both** `int()` conversions, so an exception
on either cell zeroes both fields; only a `None` column or an empty cell
defaults its own field independently. -/

/-- C5 counterexample: `bytes_in` parses as `123` but `bytes_out` is the
unparsable `"abc"`; the stored totals are `(0, 0)`, not `(123, 0)`. -/
theorem C5_counterexample :
    (parse_snapshot ["x", "process", "bytes_in", "bytes_out"]
        [["x", "myproc", "123", "abc"]]).1 = [("myproc", (0, 0))] ∧
    alookup "myproc" (parse_snapshot ["x", "process", "bytes_in", "bytes_out"]
        [["x", "myproc", "123", "abc"]]).1 ≠ some (123, 0) := by
  constructor
  · decide
  · decide

/-- C5 (amended): on a process-summary row, an exception while computing
either numeric field (unparsable non-empty cell, or column index past the
row) resets **both** byte fields to zero; when both computations succeed
(including the per-field zero defaults for a missing column or empty cell)
the two values are stored as computed.  The row is included either way. -/
theorem C5_unparsable_cells (cI cS cIn cOut : Option Nat) (st : ParseState)
    (r : List String)
    (hconn : isConnCell (cellAt r 1) = false) (hproc : cellAt r 1 ≠ "") :
    ((parseField r cIn = .error () ∨ parseField r cOut = .error ()) →
      alookup (cellAt r 1) (parseRow cI cS cIn cOut st r).totals = some (0, 0)) ∧
    (∀ b o : Int, parseField r cIn = .ok b → parseField r cOut = .ok o →
      alookup (cellAt r 1) (parseRow cI cS cIn cOut st r).totals = some (b, o)) := by
  have hrow : (parseRow cI cS cIn cOut st r).totals =
      aset (cellAt r 1) (parseTotalsCells r cIn cOut) st.totals := by
    simp only [parseRow, hconn, Bool.false_eq_true, if_false, if_neg hproc]
  constructor
  · intro herr
    have h00 : parseTotalsCells r cIn cOut = (0, 0) := by
      unfold parseTotalsCells
      rcases herr with h | h
      · rw [h]
      · rw [h]
        cases parseField r cIn <;> rfl
    rw [hrow, h00]
    exact alookup_aset_self _ _ _
  · intro b o hb ho
    have hbo : parseTotalsCells r cIn cOut = (b, o) := by
      unfold parseTotalsCells
      rw [hb, ho]
    rw [hrow, hbo]
    exact alookup_aset_self _ _ _

/-- Witness for C5 at the concrete counterexample row: the `bytes_out`
exception zeroes both fields; with the `bytes_out` column absent, the
parsed `bytes_in` value is kept and `bytes_out` defaults to zero alone. -/
theorem C5_witness :
    alookup (cellAt ["x", "myproc", "123", "abc"] 1)
      (parseRow none none (some 2) (some 3) ⟨none, [], []⟩
        ["x", "myproc", "123", "abc"]).totals = some (0, 0) ∧
    alookup (cellAt ["x", "myproc", "123"] 1)
      (parseRow none none (some 2) none ⟨none, [], []⟩
        ["x", "myproc", "123"]).totals = some (123, 0) :=
  ⟨(C5_unparsable_cells none none (some 2) (some 3) ⟨none, [], []⟩
      ["x", "myproc", "123", "abc"] (by decide) (by decide)).1 (Or.inr rfl),
   (C5_unparsable_cells none none (some 2) none ⟨none, [], []⟩
      ["x", "myproc", "123"] (by decide) (by decide)).2 123 0 rfl rfl⟩

/-! ## Claim C6 (corrected)

`extra_real = len(set(real_ifaces)) - 1` counts the loopback interface as a
real one, so `[en0, lo0]` yields `extra_count = 1`, not `0`. -/

/-- C6 counterexample: for `[{iface:"en0"}, {iface:"lo0"}]` the extra count
is not `0`. -/
theorem C6_counterexample :
    (summarize_ifaces [⟨"en0", "-", "", ""⟩, ⟨"lo0", "-", "", ""⟩]).2.1 ≠ 0 := by
  decide

/-- C6 (amended): given exactly `[{iface:"en0"}, {iface:"lo0"}]`, the
prioritizer returns primary `"en0"` with `extra_count = 1` (loopback is
excluded from the external candidate pool but still counts as a real
interface toward extras). -/
theorem C6_en0_lo0 :
    summarize_ifaces [⟨"en0", "-", "", ""⟩, ⟨"lo0", "-", "", ""⟩] = ("en0", 1, "-") := by
  decide

/-! ## Claim C7 (corrected)

`awdl` scores 40 while an unrecognized real interface scores 50, so the
peer-to-peer prefix ranks **below** the fixed mid score. -/

/-- C7 counterexample: with `awdl0` against the unrecognized `ap1`, the
primary interface is `ap1`, not the peer-to-peer one. -/
theorem C7_counterexample :
    (summarize_ifaces [⟨"awdl0", "S1", "", ""⟩, ⟨"ap1", "S2", "", ""⟩]).1 = "ap1" ∧
    ("ap1" : String) ≠ "awdl0" := by
  decide

/-- C7 (amended): a peer-to-peer-prefixed interface (score 40) ranks
**below** the fixed mid score (50) of a real interface matching no
recognized prefix: for a connection list of exactly two such distinct
interfaces, the unrecognized one is chosen as primary. -/
theorem C7_p2p_below_mid (a b sa sb la ra lb rb : String)
    (ha : score a = 40) (hb : score b = 50) (hbE : b ≠ "") :
    (summarize_ifaces [⟨a, sa, la, ra⟩, ⟨b, sb, lb, rb⟩]).1 = b := by
  have haE : a ≠ "" := by
    intro h
    subst h
    rw [show score "" = 50 from by decide] at ha
    exact absurd ha (by decide)
  have haD : a ≠ "-" := by
    intro h
    subst h
    rw [show score "-" = -100 from by decide] at ha
    exact absurd ha (by decide)
  have hbD : b ≠ "-" := by
    intro h
    subst h
    rw [show score "-" = -100 from by decide] at hb
    exact absurd hb (by decide)
  have hab : a ≠ b := by
    intro h
    rw [h, hb] at ha
    exact absurd ha (by decide)
  have halo : a ≠ "lo" := by
    intro h
    subst h
    rw [show score "lo" = -10 from by decide] at ha
    exact absurd ha (by decide)
  have halo0 : a ≠ "lo0" := by
    intro h
    subst h
    rw [show score "lo0" = -10 from by decide] at ha
    exact absurd ha (by decide)
  have hblo : b ≠ "lo" := by
    intro h
    subst h
    rw [show score "lo" = -10 from by decide] at hb
    exact absurd hb (by decide)
  have hblo0 : b ≠ "lo0" := by
    intro h
    subst h
    rw [show score "lo0" = -10 from by decide] at hb
    exact absurd hb (by decide)
  have hba : b ≠ a := hab.symm
  simp only [summarize_ifaces, ifaceOr, List.map_cons, List.map_nil, firstDedup,
    List.foldl_cons, List.foldl_nil, if_neg haE, if_neg hbE,
    List.not_mem_nil, if_false, List.nil_append,
    List.mem_singleton, if_neg hba, List.cons_append,
    List.filter_cons, List.filter_nil, pyMax, ha, hb]
  norm_num [haD, hbD, halo, halo0, hblo, hblo0, ha, hb]
  rw [if_neg (show ¬([a, b] : List String) = [] by simp)]
  simp only [List.foldl_cons, List.foldl_nil, ha, hb]
  norm_num

/-- Witness for C7: the concrete pair `awdl0` (peer-to-peer) vs `ap1`
(unrecognized) selects `ap1`. -/
theorem C7_witness :
    (summarize_ifaces [⟨"awdl0", "S1", "", ""⟩, ⟨"ap1", "S2", "", ""⟩]).1 = "ap1" :=
  C7_p2p_below_mid "awdl0" "ap1" "S1" "S2" "" "" "" ""
    (by decide) (by decide) (by decide)

/-! ## Claim C8 (corrected)

`remotes = [c["remote"] for c in conns if c["remote"]]` keeps only
non-empty remotes, so a process whose connections all have empty remote
endpoints shows the placeholder although it has connections. -/

/-- C8 counterexample: process `P` has one connection (with an empty remote
endpoint), yet its row shows the `"(no remote)"` placeholder. -/
theorem C8_counterexample :
    build_rows "process" [("P", (0, 0))] [("P", (1024, 0))]
        [("P", [⟨"en0", "E", "loc", ""⟩])] 1 =
      [Row.process ⟨"P", "en0", "E", "(no remote)", 1024, 0, 1024, 1024⟩] ∧
    ([(⟨"en0", "E", "loc", ""⟩ : Conn)] ≠ ([] : List Conn)) := by
  constructor
  · have hs : summarize_ifaces [⟨"en0", "E", "loc", ""⟩] = ("en0", 0, "E") := by decide
    have hr : remotesOf [⟨"en0", "E", "loc", ""⟩] = [] := by decide
    have hx : connExtra [⟨"en0", "E", "loc", ""⟩] = "" := by decide
    have happ : ("(no remote)" : String) ++ "" = "(no remote)" := rfl
    rw [build_rows_process_unfold "process" _ _ _ _ (by decide), procRate_eval_p1024]
    simp [procRowFor, alookup, hs, hr, hx, happ]
  · decide

/-- C8 (amended): in `process` mode the connection column starts with the
`"(no remote)"` placeholder exactly when the process has **no connection
with a non-empty remote endpoint**; otherwise it starts with the first
non-empty remote; either way the overflow annotation follows. -/
theorem C8_placeholder_iff_no_nonempty_remote (proc : String) (rt : ProcessRate)
    (conns : List Conn) :
    (remotesOf conns = [] ↔ ∀ c ∈ conns, c.remote = "") ∧
    (remotesOf conns = [] →
      (procRowFor proc rt conns).conn = "(no remote)" ++ connExtra conns) ∧
    (∀ r rest, remotesOf conns = r :: rest →
      (procRowFor proc rt conns).conn = r ++ connExtra conns) := by
  refine ⟨?_, ?_, ?_⟩
  · rw [remotesOf, List.filterMap_eq_nil_iff]
    constructor
    · intro h c hc
      have hfc := h c hc
      by_cases hr : c.remote = ""
      · exact hr
      · simp [hr] at hfc
    · intro h c hc
      simp [h c hc]
  · intro h
    simp only [procRowFor, h]
  · intro r rest h
    simp only [procRowFor, h]

/-- Witness for C8: a connection with an empty remote yields the
placeholder; a connection with remote `"r1"` yields `"r1"`. -/
theorem C8_witness :
    (procRowFor "P" ⟨1, 0, 1, 1⟩ [⟨"en0", "E", "loc", ""⟩]).conn =
      "(no remote)" ++ connExtra [⟨"en0", "E", "loc", ""⟩] ∧
    (procRowFor "P" ⟨1, 0, 1, 1⟩ [⟨"en0", "E", "l", "r1"⟩]).conn =
      "r1" ++ connExtra [⟨"en0", "E", "l", "r1"⟩] :=
  ⟨(C8_placeholder_iff_no_nonempty_remote "P" ⟨1, 0, 1, 1⟩
      [⟨"en0", "E", "loc", ""⟩]).2.1 (by decide),
   (C8_placeholder_iff_no_nonempty_remote "P" ⟨1, 0, 1, 1⟩
      [⟨"en0", "E", "l", "r1"⟩]).2.2 "r1" [] (by decide)⟩

/-! ## Claim C10 (confirmed) -/

/-- C10: a process with a rate entry whose connection list is empty in the
current snapshot produces **no** row in `remote` mode, while `process` mode
still produces a row for it. -/
theorem C10_remote_drops_connectionless (pt ct : Totals) (cc : Conns) (dt : ℚ)
    (proc : String) (rt : ProcessRate)
    (hrate : (proc, rt) ∈ procRate pt ct (clampDt dt))
    (hempty : ∀ cs, (proc, cs) ∈ cc → cs = []) :
    (∀ row ∈ build_rows "remote" pt ct cc dt, row.procName ≠ proc) ∧
    (∃ row ∈ build_rows "process" pt ct cc dt, row.procName = proc) := by
  constructor
  · intro row hrow hname
    rw [build_rows_remote_unfold] at hrow
    rw [List.mem_map] at hrow
    obtain ⟨r, hr, rfl⟩ := hrow
    obtain ⟨-, pe, hpe, hpe1, hpe2⟩ :=
      remoteRows_provenance (procRate pt ct (clampDt dt)) cc r hr
    have hname2 : r.proc = proc := hname
    have hpe3 : pe = (proc, pe.2) := by
      rw [← hname2, ← hpe1]
    exact hpe2 (hempty pe.2 (hpe3 ▸ hpe))
  · refine ⟨Row.process (procRowFor proc rt ((alookup proc cc).getD [])), ?_, rfl⟩
    rw [build_rows_process_unfold "process" _ _ _ _ (by decide)]
    exact List.mem_map.mpr ⟨(proc, rt), hrate, rfl⟩

/-- The concrete remote-mode tick behind the C10 witness: `P` has traffic
but no connections, `Q` has traffic and one connection; only `Q` gets a
row. -/
theorem build_rows_remote_eval_pq :
    build_rows "remote" [("P", (0, 0)), ("Q", (0, 0))]
        [("P", (1024, 0)), ("Q", (7, 0))]
        [("P", []), ("Q", [⟨"en0", "E", "l", "r"⟩])] 1 =
      [Row.remote ⟨"Q", "en0", "E", "r", ["l"], 7, 0, 7, 7⟩] := by
  have hpq : ("P" : String) ≠ "Q" := by decide
  have h1 : alookup "P" [("P", ((0 : Int), (0 : Int))), ("Q", (0, 0))] = some (0, 0) := by
    decide
  have h2 : alookup "Q" [("P", ((0 : Int), (0 : Int))), ("Q", (0, 0))] = some (0, 0) := by
    decide
  have hr : procRate [("P", (0, 0)), ("Q", (0, 0))] [("P", (1024, 0)), ("Q", (7, 0))]
      (clampDt 1) = [("P", ⟨1024, 0, 1024, 1024⟩), ("Q", ⟨7, 0, 7, 7⟩)] := by
    simp only [procRate, List.filterMap_cons, List.filterMap_nil, h1, h2]
    norm_num [clampDelta, clampDt]
  rw [build_rows_remote_unfold, hr]
  simp [remoteRows, alookup, hpq, groupInsert, newRemoteRow, remoteKey]

/-- Witness for C10: in that tick the only remote-mode row is for `Q`, not
for the connectionless `P`. -/
theorem C10_witness :
    (Row.remote ⟨"Q", "en0", "E", "r", ["l"], 7, 0, 7, 7⟩).procName ≠ "P" :=
  (C10_remote_drops_connectionless [("P", (0, 0)), ("Q", (0, 0))]
      [("P", (1024, 0)), ("Q", (7, 0))]
      [("P", []), ("Q", [⟨"en0", "E", "l", "r"⟩])] 1 "P" ⟨1024, 0, 1024, 1024⟩
      (by
        have hpq : ("P" : String) ≠ "Q" := by decide
        have h1 : alookup "P" [("P", ((0 : Int), (0 : Int))), ("Q", (0, 0))] =
            some (0, 0) := by decide
        have h2 : alookup "Q" [("P", ((0 : Int), (0 : Int))), ("Q", (0, 0))] =
            some (0, 0) := by decide
        have hr : procRate [("P", (0, 0)), ("Q", (0, 0))]
            [("P", (1024, 0)), ("Q", (7, 0))] (clampDt 1) =
            [("P", ⟨1024, 0, 1024, 1024⟩), ("Q", ⟨7, 0, 7, 7⟩)] := by
          simp only [procRate, List.filterMap_cons, List.filterMap_nil, h1, h2]
          norm_num [clampDelta, clampDt]
        rw [hr]
        exact List.mem_cons_self _ _)
      (by
        intro cs h
        rcases List.mem_cons.mp h with h' | h'
        · rw [Prod.mk.injEq] at h'
          exact h'.2
        · rw [List.mem_singleton, Prod.mk.injEq] at h'
          exact absurd h'.1.symm (by decide))).1
    (Row.remote ⟨"Q", "en0", "E", "r", ["l"], 7, 0, 7, 7⟩)
    (by
      rw [build_rows_remote_eval_pq]
      exact List.mem_singleton.mpr rfl)

/-! ## Claim C9: characterization of the remote grouping -/

theorem alookup_groupInsert (p : String) (rt : ProcessRate) (c : Conn)
    (g : List (GKey × RemoteRow)) (k : GKey) :
    alookup k (groupInsert p rt c g) =
      if k = remoteKey p c then
        match alookup k g with
        | some e => some { e with locals := e.locals ++ [c.local_] }
        | none => some (newRemoteRow p rt c)
      else alookup k g := by
  induction g with
  | nil =>
    by_cases hk : k = remoteKey p c
    · subst hk
      simp [groupInsert, alookup]
    · simp [groupInsert, alookup, hk, Ne.symm hk]
  | cons hd tl ih =>
    obtain ⟨k', e⟩ := hd
    by_cases hk' : k' = remoteKey p c
    · by_cases hk : k = remoteKey p c
      · simp [groupInsert, alookup, hk', hk]
      · have h1 : k' ≠ k := by
          rw [hk']
          exact Ne.symm hk
        simp [groupInsert, alookup, hk', hk, h1, Ne.symm hk]
    · by_cases hk2 : k' = k
      · have h2 : k ≠ remoteKey p c := by
          rw [← hk2]
          exact hk'
        simp [groupInsert, alookup, hk', hk2, h2]
      · simp [groupInsert, alookup, hk', hk2, ih]

theorem locsOf_nil (k : GKey) : locsOf k [] = [] := rfl

theorem locsOf_cons (k : GKey) (t : String × ProcessRate × Conn)
    (l : List (String × ProcessRate × Conn)) :
    locsOf k (t :: l) =
      if tKey t = k then t.2.2.local_ :: locsOf k l else locsOf k l := by
  simp only [locsOf, List.filterMap_cons]
  by_cases h : tKey t = k <;> simp [h]

/-- Full characterization of the grouping fold: the entry at key `k` after
folding a triple stream extends the existing entry's locals by the matching
locals, or is created from the first matching triple with all matching
locals. -/
theorem alookup_foldl_gstep (l : List (String × ProcessRate × Conn)) :
    ∀ (g : List (GKey × RemoteRow)) (k : GKey),
      alookup k (l.foldl gstep g) =
        match alookup k g with
        | some e => some { e with locals := e.locals ++ locsOf k l }
        | none =>
          match l.find? (fun t => tKey t = k) with
          | none => none
          | some t => some { proc := k.1, iface := k.2.1, state := k.2.2.1,
                             remote := k.2.2.2, locals := locsOf k l,
                             rin := t.2.1.rin, rout := t.2.1.rout,
                             rsum := t.2.1.rsum, rdelta := t.2.1.rdelta } := by
  induction l with
  | nil =>
    intro g k
    rcases h : alookup k g with _ | e <;> simp [locsOf, h]
  | cons t rest ih =>
    intro g k
    simp only [List.foldl_cons, gstep]
    rw [ih (groupInsert t.1 t.2.1 t.2.2 g) k]
    have hgi := alookup_groupInsert t.1 t.2.1 t.2.2 g k
    by_cases hk : k = tKey t
    · subst hk
      rw [if_pos (show tKey t = remoteKey t.1 t.2.2 from rfl)] at hgi
      rw [hgi, locsOf_cons, if_pos rfl,
        List.find?_cons_of_pos _ (by simp)]
      rcases h : alookup (tKey t) g with _ | e
      · rfl
      · show some { e with
            locals := (e.locals ++ [t.2.2.local_]) ++ locsOf (tKey t) rest } =
          some { e with
            locals := e.locals ++ (t.2.2.local_ :: locsOf (tKey t) rest) }
        rw [List.append_assoc, List.singleton_append]
    · have hk2 : ¬ k = remoteKey t.1 t.2.2 := hk
      rw [if_neg hk2] at hgi
      rw [hgi, locsOf_cons, if_neg (Ne.symm hk),
        List.find?_cons_of_neg _ (by simp [Ne.symm hk])]

theorem keys_groupInsert (p : String) (rt : ProcessRate) (c : Conn)
    (g : List (GKey × RemoteRow)) :
    (groupInsert p rt c g).map Prod.fst =
      if remoteKey p c ∈ g.map Prod.fst then g.map Prod.fst
      else g.map Prod.fst ++ [remoteKey p c] := by
  induction g with
  | nil => simp [groupInsert]
  | cons hd tl ih =>
    obtain ⟨k, e⟩ := hd
    by_cases hk : k = remoteKey p c
    · subst hk
      simp [groupInsert]
    · by_cases hm : remoteKey p c ∈ tl.map Prod.fst <;>
        simp [groupInsert, hk, Ne.symm hk, hm, ih]

theorem nodupKeys_foldl_gstep (l : List (String × ProcessRate × Conn)) :
    ∀ g : List (GKey × RemoteRow),
      (g.map Prod.fst).Nodup → ((l.foldl gstep g).map Prod.fst).Nodup := by
  induction l with
  | nil => intro g h; simpa using h
  | cons t rest ih =>
    intro g hg
    simp only [List.foldl_cons, gstep]
    refine ih _ ?_
    rw [keys_groupInsert]
    by_cases hm : remoteKey t.1 t.2.2 ∈ g.map Prod.fst
    · simpa [hm] using hg
    · simp only [hm, if_false]
      simp [List.nodup_append, hg, hm]

theorem foldl_gstep_forall {P : GKey × RemoteRow → Prop}
    (l : List (String × ProcessRate × Conn)) :
    ∀ g : List (GKey × RemoteRow), (∀ x ∈ g, P x) →
      (∀ t ∈ l, P (remoteKey t.1 t.2.2, newRemoteRow t.1 t.2.1 t.2.2)) →
      (∀ t ∈ l, ∀ k e, P (k, e) → P (k, { e with locals := e.locals ++ [t.2.2.local_] })) →
      ∀ x ∈ l.foldl gstep g, P x := by
  induction l with
  | nil => intro g hg _ _; simpa using hg
  | cons t rest ih =>
    intro g hg hnew hupd x hx
    simp only [List.foldl_cons, gstep] at hx
    refine ih _ ?_ (fun t' ht' => hnew t' (List.mem_cons_of_mem _ ht'))
      (fun t' ht' => hupd t' (List.mem_cons_of_mem _ ht')) x hx
    exact groupInsert_forall _ _ _ g hg (hnew t (List.mem_cons_self _ _))
      (fun k e hP => hupd t (List.mem_cons_self _ _) k e hP)

theorem rowKey_foldl_gstep (l : List (String × ProcessRate × Conn)) :
    ∀ x ∈ l.foldl gstep [], rowKey x.2 = x.1 := by
  refine foldl_gstep_forall (P := fun x => rowKey x.2 = x.1) l [] (by simp) ?_ ?_
  · intro t _
    rfl
  · intro t _ k e h
    rw [← h]
    rfl

theorem foldl_outer_eq (rates : List (String × ProcessRate)) (cc : Conns) :
    ∀ g : List (GKey × RemoteRow),
      cc.foldl (fun g pe =>
        match alookup pe.1 rates with
        | none => g
        | some rt => pe.2.foldl (fun g c => groupInsert pe.1 rt c g) g) g =
      (ratedConns rates cc).foldl gstep g := by
  induction cc with
  | nil => intro g; simp [ratedConns]
  | cons pe rest ih =>
    intro g
    simp only [List.foldl_cons, ratedConns, List.flatMap_cons, List.foldl_append]
    rcases h : alookup pe.1 rates with _ | rt
    · rw [ih]
      simp [ratedConns]
    · rw [ih]
      simp only [ratedConns, List.foldl_map, gstep]

theorem remoteRows_eq_foldl (rates : List (String × ProcessRate)) (cc : Conns) :
    remoteRows rates cc = ((ratedConns rates cc).foldl gstep []).map Prod.snd := by
  unfold remoteRows
  rw [foldl_outer_eq]

theorem mem_ratedConns {rates : List (String × ProcessRate)} {cc : Conns}
    {t : String × ProcessRate × Conn} :
    t ∈ ratedConns rates cc ↔
      ∃ pe ∈ cc, pe.1 = t.1 ∧ alookup pe.1 rates = some t.2.1 ∧ t.2.2 ∈ pe.2 := by
  unfold ratedConns
  rw [List.mem_flatMap]
  constructor
  · rintro ⟨pe, hpe, ht⟩
    rcases h : alookup pe.1 rates with _ | rt
    · rw [h] at ht
      simp at ht
    · rw [h] at ht
      rw [List.mem_map] at ht
      obtain ⟨c, hc, rfl⟩ := ht
      exact ⟨pe, hpe, rfl, h, hc⟩
  · rintro ⟨pe, hpe, h1, h2, h3⟩
    refine ⟨pe, hpe, ?_⟩
    rw [h2, List.mem_map]
    refine ⟨t.2.2, h3, ?_⟩
    rw [h1]

theorem alookup_of_mem_nodup {κ β : Type} [DecidableEq κ] {l : List (κ × β)}
    (h : (l.map Prod.fst).Nodup) {k : κ} {v : β} (hm : (k, v) ∈ l) :
    alookup k l = some v := by
  induction l with
  | nil => cases hm
  | cons hd tl ih =>
    obtain ⟨k', w⟩ := hd
    simp only [List.map_cons, List.nodup_cons] at h
    rcases List.mem_cons.mp hm with h' | h'
    · rw [Prod.mk.injEq] at h'
      simp [alookup, h'.1, h'.2]
    · have hne : k' ≠ k := by
        intro hk
        subst hk
        exact h.1 (List.mem_map.mpr ⟨(k', v), h', rfl⟩)
      simp [alookup, hne, ih h.2 h']

theorem alookup_isSome_iff {κ β : Type} [DecidableEq κ] {l : List (κ × β)} {k : κ} :
    (∃ v, alookup k l = some v) ↔ ∃ v, (k, v) ∈ l := by
  induction l with
  | nil => simp [alookup]
  | cons hd tl ih =>
    obtain ⟨k', w⟩ := hd
    by_cases hk : k' = k
    · subst hk
      simp [alookup]
    · simp only [alookup, if_neg hk, ih, List.mem_cons]
      constructor
      · rintro ⟨v, hv⟩
        exact ⟨v, Or.inr hv⟩
      · rintro ⟨v, hv | hv⟩
        · rw [Prod.mk.injEq] at hv
          exact absurd hv.1.symm hk
        · exact ⟨v, hv⟩

/-- C9: in `remote` mode, every tick produces exactly one row per distinct
`(proc, iface, state, remote)` key among the connections of processes that
have a rate entry; each row carries that process's rate quadruple, and
accumulates every matching local endpoint in first-seen order with
duplicates retained. -/
theorem C9_remote_grouping (pt ct : Totals) (cc : Conns) (dt : ℚ) :
    (((remoteRows (procRate pt ct (clampDt dt)) cc).map rowKey).Nodup) ∧
    (∀ k : GKey,
      (∃ r ∈ remoteRows (procRate pt ct (clampDt dt)) cc, rowKey r = k) ↔
      (∃ t ∈ ratedConns (procRate pt ct (clampDt dt)) cc, tKey t = k)) ∧
    (∀ r ∈ remoteRows (procRate pt ct (clampDt dt)) cc,
      r.locals = locsOf (rowKey r) (ratedConns (procRate pt ct (clampDt dt)) cc) ∧
      alookup r.proc (procRate pt ct (clampDt dt)) =
        some ⟨r.rin, r.rout, r.rsum, r.rdelta⟩) ∧
    (build_rows "remote" pt ct cc dt =
      (remoteRows (procRate pt ct (clampDt dt)) cc).map Row.remote) := by
  have hrows := remoteRows_eq_foldl (procRate pt ct (clampDt dt)) cc
  have hkeys := rowKey_foldl_gstep (ratedConns (procRate pt ct (clampDt dt)) cc)
  have hnd := nodupKeys_foldl_gstep (ratedConns (procRate pt ct (clampDt dt)) cc) []
    (by simp)
  refine ⟨?_, ?_, ?_, build_rows_remote_unfold pt ct cc dt⟩
  · rw [hrows, List.map_map]
    have hmc : ((ratedConns (procRate pt ct (clampDt dt)) cc).foldl gstep []).map
          (rowKey ∘ Prod.snd) =
        ((ratedConns (procRate pt ct (clampDt dt)) cc).foldl gstep []).map Prod.fst :=
      List.map_congr_left (fun x hx => hkeys x hx)
    rw [hmc]
    exact hnd
  · intro k
    have hchar : alookup k ((ratedConns (procRate pt ct (clampDt dt)) cc).foldl gstep []) =
        match (ratedConns (procRate pt ct (clampDt dt)) cc).find?
            (fun t => tKey t = k) with
        | none => none
        | some t => some { proc := k.1, iface := k.2.1, state := k.2.2.1,
                           remote := k.2.2.2,
                           locals := locsOf k (ratedConns (procRate pt ct (clampDt dt)) cc),
                           rin := t.2.1.rin, rout := t.2.1.rout,
                           rsum := t.2.1.rsum, rdelta := t.2.1.rdelta } :=
      alookup_foldl_gstep (ratedConns (procRate pt ct (clampDt dt)) cc) [] k
    constructor
    · rintro ⟨r, hr, rfl⟩
      rw [hrows, List.mem_map] at hr
      obtain ⟨x, hx, rfl⟩ := hr
      have hx1 : x = (rowKey x.2, x.2) := by
        rw [hkeys x hx]
      obtain ⟨v, hv⟩ : ∃ v,
          alookup (rowKey x.2)
            ((ratedConns (procRate pt ct (clampDt dt)) cc).foldl gstep []) = some v :=
        alookup_isSome_iff.mpr ⟨x.2, hx1 ▸ hx⟩
      rw [hchar] at hv
      rcases hf : (ratedConns (procRate pt ct (clampDt dt)) cc).find?
          (fun t => tKey t = rowKey x.2) with _ | t
      · rw [hf] at hv
        simp at hv
      · have htm := List.mem_of_find?_eq_some hf
        have hpt := List.find?_some hf
        exact ⟨t, htm, of_decide_eq_true hpt⟩
    · rintro ⟨t, htm, htk⟩
      obtain ⟨t0, hf⟩ : ∃ t0,
          (ratedConns (procRate pt ct (clampDt dt)) cc).find?
            (fun t => tKey t = k) = some t0 := by
        rw [← Option.isSome_iff_exists, List.find?_isSome]
        exact ⟨t, htm, by simp [htk]⟩
      have halk : alookup k
          ((ratedConns (procRate pt ct (clampDt dt)) cc).foldl gstep []) =
          some { proc := k.1, iface := k.2.1, state := k.2.2.1, remote := k.2.2.2,
                 locals := locsOf k (ratedConns (procRate pt ct (clampDt dt)) cc),
                 rin := t0.2.1.rin, rout := t0.2.1.rout,
                 rsum := t0.2.1.rsum, rdelta := t0.2.1.rdelta } := by
        rw [hchar, hf]
      have hmem := alookup_mem halk
      refine ⟨_, ?_, hkeys _ hmem⟩
      rw [hrows, List.mem_map]
      exact ⟨_, hmem, rfl⟩
  · intro r hr
    refine ⟨?_, (remoteRows_provenance _ cc r hr).1⟩
    rw [hrows, List.mem_map] at hr
    obtain ⟨x, hx, rfl⟩ := hr
    have hx1 : x = (x.1, x.2) := rfl
    have halk : alookup x.1
        ((ratedConns (procRate pt ct (clampDt dt)) cc).foldl gstep []) = some x.2 :=
      alookup_of_mem_nodup hnd (hx1 ▸ hx)
    have hchar : alookup x.1 ((ratedConns (procRate pt ct (clampDt dt)) cc).foldl gstep []) =
        match (ratedConns (procRate pt ct (clampDt dt)) cc).find?
            (fun t => tKey t = x.1) with
        | none => none
        | some t => some { proc := x.1.1, iface := x.1.2.1, state := x.1.2.2.1,
                           remote := x.1.2.2.2,
                           locals := locsOf x.1 (ratedConns (procRate pt ct (clampDt dt)) cc),
                           rin := t.2.1.rin, rout := t.2.1.rout,
                           rsum := t.2.1.rsum, rdelta := t.2.1.rdelta } :=
      alookup_foldl_gstep (ratedConns (procRate pt ct (clampDt dt)) cc) [] x.1
    rw [hchar] at halk
    rcases hf : (ratedConns (procRate pt ct (clampDt dt)) cc).find?
        (fun t => tKey t = x.1) with _ | t
    · rw [hf] at halk
      simp at halk
    · rw [hf] at halk
      have hx2 : x.2 =
          { proc := x.1.1, iface := x.1.2.1, state := x.1.2.2.1,
            remote := x.1.2.2.2,
            locals := locsOf x.1 (ratedConns (procRate pt ct (clampDt dt)) cc),
            rin := t.2.1.rin, rout := t.2.1.rout,
            rsum := t.2.1.rsum, rdelta := t.2.1.rdelta } := by
        have h2 := halk
        simp only [Option.some.injEq] at h2
        exact h2.symm
      rw [hkeys x hx]
      exact congrArg RemoteRow.locals hx2

/-- The concrete remote tick behind the C9 witness: two connections of `P`
share the grouping key `(P, en0, E, r1)` with different local endpoints. -/
theorem remoteRows_eval_two :
    remoteRows (procRate [("P", (0, 0))] [("P", (1024, 0))] (clampDt 1))
        [("P", [⟨"en0", "E", "l1", "r1"⟩, ⟨"en0", "E", "l2", "r1"⟩])] =
      [⟨"P", "en0", "E", "r1", ["l1", "l2"], 1024, 0, 1024, 1024⟩] := by
  rw [procRate_eval_p1024]
  simp [remoteRows, alookup, groupInsert, newRemoteRow, remoteKey]

/-- Witness for C9 at the concrete tick: the single produced row's locals
list is exactly the matching locals in first-seen order, and has length
2. -/
theorem C9_witness :
    (⟨"P", "en0", "E", "r1", ["l1", "l2"], 1024, 0, 1024, 1024⟩ : RemoteRow).locals =
      locsOf (rowKey ⟨"P", "en0", "E", "r1", ["l1", "l2"], 1024, 0, 1024, 1024⟩)
        (ratedConns (procRate [("P", (0, 0))] [("P", (1024, 0))] (clampDt 1))
          [("P", [⟨"en0", "E", "l1", "r1"⟩, ⟨"en0", "E", "l2", "r1"⟩])]) ∧
    (⟨"P", "en0", "E", "r1", ["l1", "l2"], 1024, 0, 1024,
        1024⟩ : RemoteRow).locals.length = 2 :=
  ⟨((C9_remote_grouping [("P", (0, 0))] [("P", (1024, 0))]
        [("P", [⟨"en0", "E", "l1", "r1"⟩, ⟨"en0", "E", "l2", "r1"⟩])] 1).2.2.1
      ⟨"P", "en0", "E", "r1", ["l1", "l2"], 1024, 0, 1024, 1024⟩
      (by
        rw [remoteRows_eval_two]
        exact List.mem_singleton.mpr rfl)).1,
   rfl⟩

end Nettop
